import Mathlib

/-!
Verification of the interned-slice table in
`src/Pods/gRPC-Core/src/core/lib/slice/slice_intern.cc`.

The table is sharded: a shard holds a bucket array (`strs`), a live-entry
count and a capacity.  Entries are interned byte sequences carrying their
creation-time hash and a reference count.  We embed the per-shard operations
(`MatchInternedSliceLocked`, `InternNewStringLocked`, `grow_shard`,
`FindOrCreateInternedSlice`, the `InternedSliceRefcount` destructor) as pure
functions on explicit shard values, with the intrusive `bucket_next` chains
represented as Lean lists (head of the list = head of the chain).  Machine
pointers (entry identity) are represented by a numeric `eid` field; the hash
is the precomputed 32-bit value the C functions receive as an argument.
-/

set_option maxHeartbeats 1000000

namespace SliceIntern

/-- Source: `#define LOG2_SHARD_COUNT 5`. -/
def LOG2_SHARD_COUNT : Nat := 5

/-- Source: `#define SHARD_COUNT (1 << LOG2_SHARD_COUNT)`. -/
def SHARD_COUNT : Nat := 2 ^ LOG2_SHARD_COUNT

/-- Source: `#define INITIAL_SHARD_CAPACITY 8`. -/
def INITIAL_SHARD_CAPACITY : Nat := 8

/-- Source: `#define TABLE_IDX(hash, capacity) (((hash) >> LOG2_SHARD_COUNT) % (capacity))`. -/
def TABLE_IDX (hash capacity : Nat) : Nat := (hash >>> LOG2_SHARD_COUNT) % capacity

/-- Source: `#define SHARD_IDX(hash) ((hash) & ((1 << LOG2_SHARD_COUNT) - 1))`. -/
def SHARD_IDX (hash : Nat) : Nat := hash &&& (2 ^ LOG2_SHARD_COUNT - 1)

/-- One interned entry (`InternedSliceRefcount` plus its trailing byte
payload).  `eid` models the entry's machine address (its identity); `hash` is
the creation-time hash; `content` the copied bytes; `refcnt` the reference
count.  The intrusive `bucket_next` pointer is represented by the entry's
position in its bucket's list. -/
structure InternedSliceRefcount where
  eid : Nat
  hash : Nat
  content : List Nat
  refcnt : Nat
  deriving DecidableEq

/-- Source struct `slice_shard`: bucket array `strs` (each bucket a chain of
entries), live count and capacity.  The mutex is not represented: every
embedded operation below corresponds to one full critical section. -/
structure slice_shard where
  strs : List (List InternedSliceRefcount)
  count : Nat
  capacity : Nat
  deriving DecidableEq

/-- The bucket chain at index `i` (`shard->strs[i]`; out-of-range reads, which
the C code never performs on a well-formed shard, default to the empty
chain). -/
def chainAt (sh : slice_shard) (i : Nat) : List InternedSliceRefcount :=
  sh.strs.getD i []

/-- All entries reachable from the shard's bucket array. -/
def entriesOf (sh : slice_shard) : List InternedSliceRefcount :=
  sh.strs.flatten

/-- Structural well-formedness: the bucket list has exactly `capacity` buckets
and the capacity is positive (it starts at 8 and only doubles). -/
@[reducible] def wf (sh : slice_shard) : Prop :=
  sh.strs.length = sh.capacity ∧ 0 < sh.capacity

/-- The spec invariant: `count` equals the number of entries reachable from
the shard's buckets. -/
@[reducible] def countInv (sh : slice_shard) : Prop :=
  sh.count = (entriesOf sh).length

/-- Every entry sits in the bucket selected by `TABLE_IDX` of its stored hash
against the shard's current capacity. -/
@[reducible] def wellPlaced (sh : slice_shard) : Prop :=
  ∀ i < sh.strs.length, ∀ e ∈ chainAt sh i, TABLE_IDX e.hash sh.capacity = i

/-- A successful `IncrementIfNonzero`: the refcount, known nonzero, is
incremented in place.  Identity, hash and content are untouched. -/
def bump (s : InternedSliceRefcount) : InternedSliceRefcount :=
  { s with refcnt := s.refcnt + 1 }

/-- Source: `MatchInternedSliceLocked` — scan the bucket chain; an entry
matches when its stored hash equals `hash` and its content equals the input;
`IncrementIfNonzero` (declared in `slice_utils.h`; modelled from the spec as
fail-when-zero, increment otherwise) then either claims it (return) or the
scan continues.  Returns the matched (bumped) entry together with the updated
chain, or `none` when no live match exists. -/
def MatchInternedSliceLocked (hash : Nat) (args : List Nat) :
    List InternedSliceRefcount →
      Option (InternedSliceRefcount × List InternedSliceRefcount)
  | [] => none
  | s :: rest =>
    if s.hash = hash ∧ s.content = args then
      if s.refcnt ≠ 0 then
        some (bump s, bump s :: rest)
      else
        (MatchInternedSliceLocked hash args rest).map (fun p => (p.1, s :: p.2))
    else
      (MatchInternedSliceLocked hash args rest).map (fun p => (p.1, s :: p.2))

/-- Source: the inner loop of `grow_shard` — walk one old bucket chain from
its head, pushing each entry onto the head of its new home bucket
`TABLE_IDX(s->hash, capacity)` in the new table. -/
def relinkChain (capacity : Nat) (tab : List (List InternedSliceRefcount)) :
    List InternedSliceRefcount → List (List InternedSliceRefcount)
  | [] => tab
  | s :: rest =>
    let idx := TABLE_IDX s.hash capacity
    relinkChain capacity (tab.set idx (s :: tab.getD idx [])) rest

/-- Source: the outer loop of `grow_shard` — relink every old bucket in
order. -/
def relinkAll (capacity : Nat) (tab : List (List InternedSliceRefcount)) :
    List (List InternedSliceRefcount) → List (List InternedSliceRefcount)
  | [] => tab
  | b :: bs => relinkAll capacity (relinkChain capacity tab b) bs

/-- Source: `grow_shard` — double the capacity, allocate a zero-initialized
(all-empty) bucket array of the doubled size, and relink every existing entry
into its new home bucket.  Entry payloads are not copied: the same entries
(same `eid`, hash, content, refcount) are relinked. -/
def grow_shard (shard : slice_shard) : slice_shard :=
  let capacity := shard.capacity * 2
  let strtab := relinkAll capacity
    (List.replicate capacity ([] : List InternedSliceRefcount)) shard.strs
  { strs := strtab, count := shard.count, capacity := capacity }

/-- Source: `InternNewStringLocked` — allocate a new entry (the
`InternedSliceRefcount` constructor, declared in `slice_utils.h` outside these
sources, is modelled from the spec: refcount starts at 1 and `bucket_next` is
the old bucket head), copy the bytes (the `memcpy` is guarded by `len > 0`;
for zero length nothing is copied, which yields the same empty content), make
it the bucket head, increment `count`, and grow the shard when
`count > capacity * 2`.  `fid` models the fresh allocation's address. -/
def InternNewStringLocked (shard : slice_shard) (idx : Nat) (hash : Nat)
    (args : List Nat) (fid : Nat) : InternedSliceRefcount × slice_shard :=
  let len := args.length
  let s : InternedSliceRefcount :=
    { eid := fid, hash := hash,
      content := if 0 < len then args else [], refcnt := 1 }
  let shard1 : slice_shard :=
    { shard with strs := shard.strs.set idx (s :: shard.strs.getD idx []),
                 count := shard.count + 1 }
  if shard1.count > shard1.capacity * 2 then (s, grow_shard shard1)
  else (s, shard1)

/-- Source: `FindOrCreateInternedSlice` — under the shard lock, compute the
bucket index from the precomputed hash, try to match an existing entry, and
otherwise create a new one.  The whole function is one critical section on the
shard selected by `SHARD_IDX(hash)`; the embedding acts on that shard's
value. -/
def FindOrCreateInternedSlice (shard : slice_shard) (hash : Nat)
    (args : List Nat) (fid : Nat) : InternedSliceRefcount × slice_shard :=
  let idx := TABLE_IDX hash shard.capacity
  match MatchInternedSliceLocked hash args (shard.strs.getD idx []) with
  | some p => (p.1, { shard with strs := shard.strs.set idx p.2 })
  | none => InternNewStringLocked shard idx hash args fid

/-- Source: the search loop of `InternedSliceRefcount::~InternedSliceRefcount`
— walk the expected bucket chain until the entry (by identity) is found.  When
the chain ends without finding it the C loop advances `cur = cur->bucket_next`
through the null terminator, a crash; that fall-off is modelled as `none`. -/
def unlinkFromChain (eid : Nat) :
    List InternedSliceRefcount → Option (List InternedSliceRefcount)
  | [] => none
  | s :: rest =>
    if s.eid = eid then some rest
    else (unlinkFromChain eid rest).map (fun c => s :: c)

/-- Source: `InternedSliceRefcount::~InternedSliceRefcount` — under the
owning shard's lock (shard selected by `SHARD_IDX(this->hash)`), unlink the
entry from the bucket `TABLE_IDX(this->hash, shard->capacity)` and decrement
`count`.  `none` models the crash when the entry is missing from its
chain. -/
def internedSliceDtor (sh : slice_shard) (e : InternedSliceRefcount) :
    Option slice_shard :=
  let idx := TABLE_IDX e.hash sh.capacity
  match unlinkFromChain e.eid (sh.strs.getD idx []) with
  | none => none
  | some chain =>
    some { sh with strs := sh.strs.set idx chain, count := sh.count - 1 }

/-- Can a query with hash `h` and content `c` currently be answered by a live
entry in its home bucket?  This is exactly what `MatchInternedSliceLocked`
succeeds on. -/
def findable (sh : slice_shard) (h : Nat) (c : List Nat) : Prop :=
  ∃ e ∈ chainAt sh (TABLE_IDX h sh.capacity),
    e.hash = h ∧ e.content = c ∧ e.refcnt ≠ 0

/-- Every entry of a working bucket table sits in the bucket its hash selects
against `capacity` buckets. -/
def placedTab (capacity : Nat) (tab : List (List InternedSliceRefcount)) :
    Prop :=
  ∀ i < tab.length, ∀ e ∈ tab.getD i [], TABLE_IDX e.hash capacity = i

/-- The entry value a creating intern call produces: fresh identity, the
precomputed hash, the copied bytes, refcount 1. -/
def newEntry (hash : Nat) (args : List Nat) (fid : Nat) : InternedSliceRefcount :=
  { eid := fid, hash := hash, content := args, refcnt := 1 }

/-- The shard after the new entry is prepended to bucket `idx` and `count` is
incremented, before the growth check (source lines 157-158). -/
def linkNew (shard : slice_shard) (idx : Nat) (hash : Nat) (args : List Nat)
    (fid : Nat) : slice_shard :=
  { shard with
    strs := shard.strs.set idx (newEntry hash args fid :: shard.strs.getD idx []),
    count := shard.count + 1 }

/-- The process-wide globals of `slice_intern.cc`: `g_hash_seed`,
`g_forced_hash_seed` and the shard array `g_shards` (absent before `init`). -/
structure GlobalState where
  g_hash_seed : Nat
  g_forced_hash_seed : Bool
  g_shards : Option (List slice_shard)
  deriving DecidableEq

/-- The shard value `grpc_slice_intern_init` gives every shard: count 0,
capacity `INITIAL_SHARD_CAPACITY`, zero-initialized (all-empty) buckets. -/
def initialShard : slice_shard :=
  { strs := List.replicate INITIAL_SHARD_CAPACITY [],
    count := 0, capacity := INITIAL_SHARD_CAPACITY }

/-- Source: `grpc_test_only_set_slice_hash_seed` — unconditionally store the
seed and set the forced flag. -/
def grpc_test_only_set_slice_hash_seed (st : GlobalState) (seed : Nat) :
    GlobalState :=
  { st with g_hash_seed := seed, g_forced_hash_seed := true }

/-- Source: `grpc_slice_intern_init` — when the seed was not forced, derive it
from the realtime clock's nanosecond reading cast to `uint32_t` (the cast is
the `% 2 ^ 32`); then allocate `SHARD_COUNT` shards, each `initialShard`. -/
def grpc_slice_intern_init (st : GlobalState) (clock_nsec : Nat) :
    GlobalState :=
  { st with
    g_hash_seed :=
      if st.g_forced_hash_seed then st.g_hash_seed else clock_nsec % 2 ^ 32,
    g_shards := some (List.replicate SHARD_COUNT initialShard) }

/-- The two operations that touch the seed globals, for stating that the
forced flag is never cleared. -/
inductive GlobalOp where
  | init (clock_nsec : Nat)
  | force_seed (seed : Nat)
  deriving DecidableEq

/-- Apply one global operation. -/
def applyOp (st : GlobalState) : GlobalOp → GlobalState
  | .init c => grpc_slice_intern_init st c
  | .force_seed s => grpc_test_only_set_slice_hash_seed st s

/-- Apply a sequence of global operations, oldest first. -/
def applyOps (st : GlobalState) (ops : List GlobalOp) : GlobalState :=
  ops.foldl applyOp st

/-- Modelled from the spec: one hex digit of `grpc_dump_slice`'s hex
rendering. -/
def hexDigitChar (n : Nat) : Char :=
  if n < 10 then Char.ofNat (48 + n) else Char.ofNat (87 + n)

/-- Modelled from the spec: the two hex digits of one byte. -/
def dumpHexByte (b : Nat) : List Char :=
  [hexDigitChar (b / 16 % 16), hexDigitChar (b % 16)]

/-- Modelled from the spec: the printable-ASCII rendering of one byte
(non-printable bytes become a dot). -/
def dumpAsciiByte (b : Nat) : Char :=
  if 32 ≤ b ∧ b ≤ 126 then Char.ofNat b else '.'

/-- Modelled from the spec: `grpc_dump_slice(slice, GPR_DUMP_HEX |
GPR_DUMP_ASCII)` (defined in `slice_string_helpers.cc`, outside these
sources): a dual hex and printable-ASCII rendering of the bytes. -/
def grpc_dump_slice (bytes : List Nat) : List Char × List Char :=
  ((bytes.map dumpHexByte).flatten, bytes.map dumpAsciiByte)

/-- Observable effects of `grpc_slice_intern_shutdown`: the per-entry
`LEAKED:` log lines, how many shard bucket arrays were `gpr_free`d, how many
entry payloads were freed (the code never frees any), whether
`delete[] g_shards` ran, and whether `abort()` was reached. -/
structure ShutdownResult where
  leakLines : List (List Char × List Char)
  freedBucketArrays : Nat
  freedEntries : Nat
  shardArrayFreed : Bool
  aborted : Bool
  deriving DecidableEq

/-- Source: the shard loop of `grpc_slice_intern_shutdown`.  For each shard in
order: when `count != 0`, dump every entry reachable from the buckets (one
line per entry), then — when `grpc_iomgr_abort_on_leaks()` is configured —
`abort()` before anything further is freed; otherwise `gpr_free` the bucket
array and continue.  After the loop, `delete[] g_shards`. -/
def shutdownLoop (abortOnLeaks : Bool) : List slice_shard → ShutdownResult
  | [] =>
    { leakLines := [], freedBucketArrays := 0, freedEntries := 0,
      shardArrayFreed := true, aborted := false }
  | sh :: rest =>
    let lines :=
      if sh.count ≠ 0 then
        (entriesOf sh).map (fun s => grpc_dump_slice s.content)
      else []
    if sh.count ≠ 0 ∧ abortOnLeaks then
      { leakLines := lines, freedBucketArrays := 0, freedEntries := 0,
        shardArrayFreed := false, aborted := true }
    else
      let r := shutdownLoop abortOnLeaks rest
      { r with leakLines := lines ++ r.leakLines,
               freedBucketArrays := r.freedBucketArrays + 1 }

/-- Source: `grpc_slice_intern_shutdown`, with the external
`grpc_iomgr_abort_on_leaks()` configuration passed as a boolean. -/
def grpc_slice_intern_shutdown (shards : List slice_shard)
    (abortOnLeaks : Bool) : ShutdownResult :=
  shutdownLoop abortOnLeaks shards

/-! ### Statements of the claims -/

/-- What claim C1 asserts of one `FindOrCreateInternedSlice` call: content
fidelity, the match path (live entry of equal content exists: it is returned
bumped, nothing allocated), the create path (fresh entry, refcount 1, linked
into the selected bucket), and same-identity on repeat intern. -/
def C1Statement (sh : slice_shard) (hash : Nat) (args : List Nat)
    (fid : Nat) : Prop :=
  (FindOrCreateInternedSlice sh hash args fid).1.content = args ∧
  (FindOrCreateInternedSlice sh hash args fid).1.hash = hash ∧
  ((∃ e ∈ entriesOf sh, e.content = args ∧ e.refcnt ≠ 0) →
    ∃ e ∈ chainAt sh (TABLE_IDX hash sh.capacity),
      e.hash = hash ∧ e.content = args ∧ e.refcnt ≠ 0 ∧
      (FindOrCreateInternedSlice sh hash args fid).1 = bump e ∧
      (FindOrCreateInternedSlice sh hash args fid).2.count = sh.count ∧
      (entriesOf (FindOrCreateInternedSlice sh hash args fid).2).map
        InternedSliceRefcount.eid
        = (entriesOf sh).map InternedSliceRefcount.eid) ∧
  ((¬ ∃ e ∈ entriesOf sh, e.content = args ∧ e.refcnt ≠ 0) →
    (FindOrCreateInternedSlice sh hash args fid).1 = newEntry hash args fid ∧
    (FindOrCreateInternedSlice sh hash args fid).2.count = sh.count + 1 ∧
    (entriesOf (FindOrCreateInternedSlice sh hash args fid).2).Perm
      (newEntry hash args fid :: entriesOf sh) ∧
    newEntry hash args fid ∈
      chainAt (FindOrCreateInternedSlice sh hash args fid).2
        (TABLE_IDX hash (FindOrCreateInternedSlice sh hash args fid).2.capacity)) ∧
  ((∀ e ∈ entriesOf sh, e.content ≠ args) → ∀ fid₂,
    (FindOrCreateInternedSlice (FindOrCreateInternedSlice sh hash args fid).2
      hash args fid₂).1.eid
      = (FindOrCreateInternedSlice sh hash args fid).1.eid)

/-- What claim C3 asserts of shard growth: doubled zero-initialized bucket
array, every entry relinked to `(hash >> 5) mod newCapacity`, entries (hence
payloads and count) untouched, findability preserved, trigger condition
`count > 2 * capacity` on the create path, and capacity monotone. -/
def C3Statement (sh : slice_shard) : Prop :=
  (grow_shard sh).capacity = sh.capacity * 2 ∧
  (grow_shard sh).strs.length = sh.capacity * 2 ∧
  sh.capacity < (grow_shard sh).capacity ∧
  wellPlaced (grow_shard sh) ∧
  (entriesOf (grow_shard sh)).Perm (entriesOf sh) ∧
  (grow_shard sh).count = sh.count ∧
  (∀ h c, findable sh h c → findable (grow_shard sh) h c) ∧
  (∀ idx hash args fid, sh.count + 1 > sh.capacity * 2 →
    (InternNewStringLocked sh idx hash args fid).2.capacity = sh.capacity * 2) ∧
  (∀ idx hash args fid, ¬ sh.count + 1 > sh.capacity * 2 →
    (InternNewStringLocked sh idx hash args fid).2.capacity = sh.capacity) ∧
  (∀ hash args fid,
    sh.capacity ≤ (FindOrCreateInternedSlice sh hash args fid).2.capacity)

/-- What claim C4 asserts: `count = number of reachable entries` is preserved
by find-or-create (and creation adds exactly one entry), by drop-to-zero
destruction (which removes exactly one entry and decrements `count` by one),
and by growth (which changes neither `count` nor the entries). -/
def C4Statement (sh : slice_shard) : Prop :=
  (∀ hash args fid, countInv (FindOrCreateInternedSlice sh hash args fid).2) ∧
  (∀ hash args fid,
    MatchInternedSliceLocked hash args
      (chainAt sh (TABLE_IDX hash sh.capacity)) = none →
    (FindOrCreateInternedSlice sh hash args fid).2.count = sh.count + 1) ∧
  (∀ e sh', internedSliceDtor sh e = some sh' →
    countInv sh' ∧ sh'.count + 1 = sh.count ∧
    (entriesOf sh').length + 1 = (entriesOf sh).length) ∧
  countInv (grow_shard sh) ∧
  (grow_shard sh).count = sh.count ∧
  (entriesOf (grow_shard sh)).Perm (entriesOf sh)

/-- What claim C6 asserts of non-strict shutdown: the per-entry leak lines
are exactly the hex/ASCII dumps of the remaining entries, in particular there
are exactly as many lines as remaining entries (none when none remain). -/
def C6Statement (shards : List slice_shard) : Prop :=
  (grpc_slice_intern_shutdown shards false).leakLines =
    ((shards.map entriesOf).flatten).map (fun e => grpc_dump_slice e.content) ∧
  (grpc_slice_intern_shutdown shards false).leakLines.length =
    ((shards.map entriesOf).flatten).length ∧
  ((shards.map entriesOf).flatten = [] →
    (grpc_slice_intern_shutdown shards false).leakLines = [])

/-- A concrete entry used by the witnesses. -/
def demoEntry : InternedSliceRefcount :=
  { eid := 1, hash := 64, content := [104, 105], refcnt := 1 }

/-- A second concrete entry used by the shutdown counterexample. -/
def demoEntry2 : InternedSliceRefcount :=
  { eid := 2, hash := 0, content := [33], refcnt := 1 }

/-- A concrete shard holding one remaining (leaked) entry. -/
def leakShard : slice_shard :=
  { strs := [[demoEntry]], count := 1, capacity := 1 }

/-- A second concrete shard holding one remaining (leaked) entry. -/
def leakShard2 : slice_shard :=
  { strs := [[demoEntry2]], count := 1, capacity := 1 }

/-- A concrete two-shard table with one remaining entry, for the shutdown
witnesses. -/
def c6Shards : List slice_shard :=
  [leakShard, initialShard]

/-- A concrete table with two remaining entries in two different shards. -/
def twoLeakShards : List slice_shard :=
  [leakShard, leakShard2]

/-- A concrete 32-shard table whose first shard has one remaining (leaked)
entry. -/
def leakyTable : List slice_shard :=
  { strs := [demoEntry] :: List.replicate 7 [], count := 1, capacity := 8 }
    :: List.replicate 31 initialShard

/-! ### Generic list lemmas used by the shard proofs -/

theorem getD_eq_get {α : Type} (l : List α) (d : α) (i : Nat)
    (h : i < l.length) : l.getD i d = l.get ⟨i, h⟩ := by
  simp [List.getD_eq_getElem?_getD, List.getElem?_eq_getElem h]

theorem getD_eq_default {α : Type} (l : List α) (d : α) (i : Nat)
    (h : l.length ≤ i) : l.getD i d = d := by
  simp [List.getD_eq_getElem?_getD, List.getElem?_eq_none h]

theorem set_decomp {α : Type} (l : List α) (i : Nat) (c : α)
    (h : i < l.length) : l.set i c = l.take i ++ c :: l.drop (i + 1) := by
  rw [List.set_eq_take_append_cons_drop, if_pos h]

theorem self_decomp {α : Type} (l : List α) (d : α) (i : Nat)
    (h : i < l.length) : l = l.take i ++ l.getD i d :: l.drop (i + 1) := by
  conv_lhs => rw [← List.take_append_drop i l]
  rw [getD_eq_get l d i h, List.get_eq_getElem, List.getElem_cons_drop]

theorem getD_set_self {α : Type} :
    ∀ (l : List α) (i : Nat) (c d : α), i < l.length →
      (l.set i c).getD i d = c := by
  intro l
  induction l with
  | nil => intro i c d h; simp at h
  | cons a t ih =>
    intro i c d h
    cases i with
    | zero => rfl
    | succ j =>
      simp only [List.set_cons_succ, List.getD_cons_succ]
      exact ih j c d (Nat.lt_of_succ_lt_succ h)

theorem getD_set_ne {α : Type} :
    ∀ (l : List α) (i j : Nat) (c d : α), i ≠ j →
      (l.set i c).getD j d = l.getD j d := by
  intro l
  induction l with
  | nil => intro i j c d _; simp [List.set_nil]
  | cons a t ih =>
    intro i j c d hne
    cases i with
    | zero =>
      cases j with
      | zero => exact absurd rfl hne
      | succ j' => simp [List.set_cons_zero, List.getD_cons_succ]
    | succ i' =>
      cases j with
      | zero => simp [List.set_cons_succ, List.getD_cons_zero]
      | succ j' =>
        simp only [List.set_cons_succ, List.getD_cons_succ]
        exact ih i' j' c d (fun hij => hne (by rw [hij]))

theorem flatten_set {α : Type} (tab : List (List α)) (i : Nat) (c : List α)
    (h : i < tab.length) :
    (tab.set i c).flatten =
      (tab.take i).flatten ++ c ++ (tab.drop (i + 1)).flatten := by
  rw [set_decomp tab i c h, List.flatten_append, List.flatten_cons,
    List.append_assoc]

theorem flatten_decomp {α : Type} (tab : List (List α)) (i : Nat)
    (h : i < tab.length) :
    tab.flatten =
      (tab.take i).flatten ++ tab.getD i [] ++ (tab.drop (i + 1)).flatten := by
  conv_lhs => rw [self_decomp tab [] i h]
  rw [List.flatten_append, List.flatten_cons, List.append_assoc]

theorem flatten_set_cons_perm {α : Type} (tab : List (List α)) (i : Nat)
    (x : α) (h : i < tab.length) :
    ((tab.set i (x :: tab.getD i [])).flatten).Perm (x :: tab.flatten) := by
  rw [flatten_set tab i _ h, flatten_decomp tab i h]
  simp only [List.cons_append, List.append_assoc]
  exact List.perm_middle

theorem mem_flatten_idx {α : Type} :
    ∀ (tab : List (List α)) (x : α), x ∈ tab.flatten →
      ∃ i, i < tab.length ∧ x ∈ tab.getD i [] := by
  intro tab
  induction tab with
  | nil => intro x hx; simp at hx
  | cons b bs ih =>
    intro x hx
    rw [List.flatten_cons, List.mem_append] at hx
    cases hx with
    | inl hb => exact ⟨0, Nat.succ_pos _, hb⟩
    | inr hbs =>
      obtain ⟨i, hi, hmem⟩ := ih x hbs
      exact ⟨i + 1, Nat.succ_lt_succ hi, by simpa [List.getD_cons_succ] using hmem⟩

theorem mem_getD_flatten {α : Type} (tab : List (List α)) (i : Nat) (x : α)
    (hx : x ∈ tab.getD i []) : x ∈ tab.flatten := by
  rcases Nat.lt_or_ge i tab.length with h | h
  · rw [getD_eq_get tab [] i h] at hx
    exact List.mem_flatten.2 ⟨tab.get ⟨i, h⟩, tab.get_mem i h, hx⟩
  · rw [getD_eq_default tab [] i h] at hx
    simp at hx

/-! ### Characterization of the bucket-scan (`MatchInternedSliceLocked`) -/

theorem match_eq_none_iff (hash : Nat) (args : List Nat) :
    ∀ chain, MatchInternedSliceLocked hash args chain = none ↔
      ∀ e ∈ chain, e.hash = hash → e.content = args → e.refcnt = 0 := by
  intro chain
  induction chain with
  | nil => simp [MatchInternedSliceLocked]
  | cons s rest ih =>
    by_cases hc : s.hash = hash ∧ s.content = args
    · by_cases hr : s.refcnt = 0
      · rw [MatchInternedSliceLocked, if_pos hc,
          if_neg (show ¬s.refcnt ≠ 0 from fun h => h hr),
          Option.map_eq_none', ih]
        constructor
        · intro h e he
          rcases List.mem_cons.1 he with rfl | hmem
          · intro _ _; exact hr
          · exact h e hmem
        · intro h e he; exact h e (List.mem_cons_of_mem s he)
      · rw [MatchInternedSliceLocked, if_pos hc, if_pos hr]
        constructor
        · intro h; exact Option.noConfusion h
        · intro hAll; exact absurd (hAll s (List.mem_cons_self s rest) hc.1 hc.2) hr
    · rw [MatchInternedSliceLocked, if_neg hc, Option.map_eq_none', ih]
      constructor
      · intro h e he
        rcases List.mem_cons.1 he with rfl | hmem
        · intro h1 h2; exact absurd ⟨h1, h2⟩ hc
        · exact h e hmem
      · intro h e he; exact h e (List.mem_cons_of_mem s he)

theorem match_some_decomp (hash : Nat) (args : List Nat) :
    ∀ chain m chain',
      MatchInternedSliceLocked hash args chain = some (m, chain') →
      ∃ pre e suf, chain = pre ++ e :: suf ∧ e.hash = hash ∧
        e.content = args ∧ e.refcnt ≠ 0 ∧ m = bump e ∧
        chain' = pre ++ bump e :: suf := by
  intro chain
  induction chain with
  | nil => intro m c' h; exact Option.noConfusion h
  | cons s rest ih =>
    intro m c' h
    by_cases hc : s.hash = hash ∧ s.content = args
    · by_cases hr : s.refcnt = 0
      · rw [MatchInternedSliceLocked, if_pos hc,
          if_neg (show ¬s.refcnt ≠ 0 from fun hne => hne hr)] at h
        obtain ⟨⟨m₀, c₀⟩, hm₀, hmap⟩ := Option.map_eq_some'.1 h
        have hm : m₀ = m := congrArg Prod.fst hmap
        have hc' : s :: c₀ = c' := congrArg Prod.snd hmap
        obtain ⟨pre, e, suf, hrest, h1, h2, h3, h4, h5⟩ := ih m₀ c₀ hm₀
        exact ⟨s :: pre, e, suf, by rw [hrest]; rfl, h1, h2, h3, hm ▸ h4,
          by rw [← hc', h5]; rfl⟩
      · rw [MatchInternedSliceLocked, if_pos hc, if_pos hr] at h
        have h' := Option.some.inj h
        have h1 : bump s = m := congrArg Prod.fst h'
        have h2 : bump s :: rest = c' := congrArg Prod.snd h'
        exact ⟨[], s, rest, rfl, hc.1, hc.2, hr, h1.symm, h2.symm⟩
    · rw [MatchInternedSliceLocked, if_neg hc] at h
      obtain ⟨⟨m₀, c₀⟩, hm₀, hmap⟩ := Option.map_eq_some'.1 h
      have hm : m₀ = m := congrArg Prod.fst hmap
      have hc' : s :: c₀ = c' := congrArg Prod.snd hmap
      obtain ⟨pre, e, suf, hrest, h1, h2, h3, h4, h5⟩ := ih m₀ c₀ hm₀
      exact ⟨s :: pre, e, suf, by rw [hrest]; rfl, h1, h2, h3, hm ▸ h4,
        by rw [← hc', h5]; rfl⟩

theorem match_some_maps (hash : Nat) (args : List Nat)
    (chain : List InternedSliceRefcount) (m : InternedSliceRefcount)
    (chain' : List InternedSliceRefcount)
    (h : MatchInternedSliceLocked hash args chain = some (m, chain')) :
    chain'.map InternedSliceRefcount.eid = chain.map InternedSliceRefcount.eid ∧
      chain'.length = chain.length := by
  obtain ⟨pre, e, suf, rfl, _, _, _, _, h5⟩ := match_some_decomp hash args chain m chain' h
  subst h5
  constructor
  · simp [bump]
  · simp

theorem match_of_unique (hash : Nat) (args : List Nat)
    (chain : List InternedSliceRefcount) (s : InternedSliceRefcount)
    (hs : s ∈ chain) (h1 : s.hash = hash) (h2 : s.content = args)
    (h3 : s.refcnt ≠ 0)
    (huniq : ∀ x ∈ chain, x.hash = hash → x.content = args → x = s) :
    ∃ chain', MatchInternedSliceLocked hash args chain = some (bump s, chain') := by
  cases hm : MatchInternedSliceLocked hash args chain with
  | none => exact absurd ((match_eq_none_iff hash args chain).1 hm s hs h1 h2) h3
  | some p =>
    obtain ⟨m, c'⟩ := p
    obtain ⟨pre, e, suf, hchain, he1, he2, _, h4, _⟩ :=
      match_some_decomp hash args chain m c' hm
    have hemem : e ∈ chain := by
      rw [hchain]
      exact List.mem_append_right pre (List.mem_cons_self e suf)
    have hes : e = s := huniq e hemem he1 he2
    exact ⟨c', by rw [h4, hes]⟩

/-! ### Characterization of the destructor's unlink loop -/

theorem unlink_eq_none_iff (eid : Nat) :
    ∀ chain, unlinkFromChain eid chain = none ↔ ∀ e ∈ chain, e.eid ≠ eid := by
  intro chain
  induction chain with
  | nil => simp [unlinkFromChain]
  | cons s rest ih =>
    by_cases hs : s.eid = eid
    · rw [unlinkFromChain, if_pos hs]
      constructor
      · intro h; exact Option.noConfusion h
      · intro hAll; exact absurd hs (hAll s (List.mem_cons_self s rest))
    · rw [unlinkFromChain, if_neg hs, Option.map_eq_none', ih]
      constructor
      · intro h e he
        rcases List.mem_cons.1 he with rfl | hmem
        · exact hs
        · exact h e hmem
      · intro h e he; exact h e (List.mem_cons_of_mem s he)

theorem unlink_some_decomp (eid : Nat) :
    ∀ chain chain', unlinkFromChain eid chain = some chain' →
      ∃ pre e suf, chain = pre ++ e :: suf ∧ e.eid = eid ∧
        chain' = pre ++ suf := by
  intro chain
  induction chain with
  | nil => intro c' h; exact Option.noConfusion h
  | cons s rest ih =>
    intro c' h
    by_cases hs : s.eid = eid
    · rw [unlinkFromChain, if_pos hs] at h
      exact ⟨[], s, rest, rfl, hs, (Option.some.inj h).symm⟩
    · rw [unlinkFromChain, if_neg hs] at h
      obtain ⟨c₀, hc₀, hmap⟩ := Option.map_eq_some'.1 h
      obtain ⟨pre, e, suf, hrest, h1, h2⟩ := ih c₀ hc₀
      exact ⟨s :: pre, e, suf, by rw [hrest]; rfl, h1, by rw [← hmap, h2]; rfl⟩

/-! ### Shard growth (`grow_shard`) -/

theorem tableIdx_lt (h capacity : Nat) (hcap : 0 < capacity) :
    TABLE_IDX h capacity < capacity :=
  Nat.mod_lt _ hcap

theorem relinkChain_length (capacity : Nat) :
    ∀ (chain : List InternedSliceRefcount) tab,
      (relinkChain capacity tab chain).length = tab.length := by
  intro chain
  induction chain with
  | nil => intro tab; rfl
  | cons s rest ih =>
    intro tab
    rw [relinkChain, ih, List.length_set]

theorem relinkAll_length (capacity : Nat) :
    ∀ (bs : List (List InternedSliceRefcount)) tab,
      (relinkAll capacity tab bs).length = tab.length := by
  intro bs
  induction bs with
  | nil => intro tab; rfl
  | cons b bs ih =>
    intro tab
    rw [relinkAll, ih, relinkChain_length]

theorem relinkChain_flatten_perm (capacity : Nat) (hcap : 0 < capacity) :
    ∀ (chain : List InternedSliceRefcount) tab, tab.length = capacity →
      ((relinkChain capacity tab chain).flatten).Perm (chain ++ tab.flatten) := by
  intro chain
  induction chain with
  | nil => intro tab _; exact List.Perm.refl _
  | cons s rest ih =>
    intro tab hlen
    rw [relinkChain]
    have hidx : TABLE_IDX s.hash capacity < tab.length :=
      hlen ▸ tableIdx_lt s.hash capacity hcap
    have h1 := ih (tab.set (TABLE_IDX s.hash capacity)
      (s :: tab.getD (TABLE_IDX s.hash capacity) []))
      (by rw [List.length_set, hlen])
    have h2 := flatten_set_cons_perm tab (TABLE_IDX s.hash capacity) s hidx
    refine h1.trans ((List.Perm.append_left rest h2).trans ?_)
    exact List.perm_middle

theorem relinkAll_flatten_perm (capacity : Nat) (hcap : 0 < capacity) :
    ∀ (bs : List (List InternedSliceRefcount)) tab, tab.length = capacity →
      ((relinkAll capacity tab bs).flatten).Perm (bs.flatten ++ tab.flatten) := by
  intro bs
  induction bs with
  | nil =>
    intro tab _
    rw [relinkAll, List.flatten_nil, List.nil_append]
  | cons b bs ih =>
    intro tab hlen
    rw [relinkAll]
    have hlen' : (relinkChain capacity tab b).length = capacity := by
      rw [relinkChain_length, hlen]
    have h1 := ih (relinkChain capacity tab b) hlen'
    have h2 := relinkChain_flatten_perm capacity hcap b tab hlen
    refine h1.trans ((List.Perm.append_left bs.flatten h2).trans ?_)
    rw [List.flatten_cons, ← List.append_assoc]
    exact List.Perm.append_right tab.flatten List.perm_append_comm

theorem relinkChain_placed (capacity : Nat) (hcap : 0 < capacity) :
    ∀ (chain : List InternedSliceRefcount) tab, tab.length = capacity →
      placedTab capacity tab → placedTab capacity (relinkChain capacity tab chain) := by
  intro chain
  induction chain with
  | nil => intro tab _ hp; exact hp
  | cons s rest ih =>
    intro tab hlen hp
    rw [relinkChain]
    refine ih _ (by rw [List.length_set, hlen]) ?_
    intro i hi e he
    rw [List.length_set] at hi
    have hidx : TABLE_IDX s.hash capacity < tab.length :=
      hlen ▸ tableIdx_lt s.hash capacity hcap
    by_cases hij : TABLE_IDX s.hash capacity = i
    · subst hij
      rw [getD_set_self tab _ _ _ hidx] at he
      rcases List.mem_cons.1 he with rfl | hmem
      · rfl
      · exact hp _ hidx e hmem
    · rw [getD_set_ne tab _ _ _ _ hij] at he
      exact hp i hi e he

theorem relinkAll_placed (capacity : Nat) (hcap : 0 < capacity) :
    ∀ (bs : List (List InternedSliceRefcount)) tab, tab.length = capacity →
      placedTab capacity tab → placedTab capacity (relinkAll capacity tab bs) := by
  intro bs
  induction bs with
  | nil => intro tab _ hp; exact hp
  | cons b bs ih =>
    intro tab hlen hp
    rw [relinkAll]
    exact ih _ (by rw [relinkChain_length, hlen])
      (relinkChain_placed capacity hcap b tab hlen hp)

theorem getD_replicate_nil {α : Type} (n i : Nat) :
    (List.replicate n ([] : List α)).getD i [] = [] := by
  rcases Nat.lt_or_ge i (List.replicate n ([] : List α)).length with h | h
  · rw [getD_eq_get _ _ _ h, List.get_eq_getElem, List.getElem_replicate]
  · exact getD_eq_default _ _ _ h

theorem placed_replicate (capacity n : Nat) :
    placedTab capacity (List.replicate n ([] : List InternedSliceRefcount)) := by
  intro i _ e he
  rw [getD_replicate_nil] at he
  exact absurd he (List.not_mem_nil e)

theorem grow_capacity (sh : slice_shard) :
    (grow_shard sh).capacity = sh.capacity * 2 := rfl

theorem grow_count (sh : slice_shard) : (grow_shard sh).count = sh.count := rfl

theorem grow_len (sh : slice_shard) :
    (grow_shard sh).strs.length = sh.capacity * 2 := by
  show (relinkAll _ _ _).length = _
  rw [relinkAll_length, List.length_replicate]

theorem grow_entries_perm (sh : slice_shard) (hcap : 0 < sh.capacity) :
    (entriesOf (grow_shard sh)).Perm (entriesOf sh) := by
  have hcap2 : 0 < sh.capacity * 2 := Nat.mul_pos hcap (by decide)
  have h := relinkAll_flatten_perm (sh.capacity * 2) hcap2 sh.strs
    (List.replicate (sh.capacity * 2) []) (List.length_replicate _ _)
  show ((relinkAll _ _ _).flatten).Perm _
  refine h.trans ?_
  simp [entriesOf]

theorem grow_wellPlaced (sh : slice_shard) (hcap : 0 < sh.capacity) :
    wellPlaced (grow_shard sh) := by
  have hcap2 : 0 < sh.capacity * 2 := Nat.mul_pos hcap (by decide)
  have h := relinkAll_placed (sh.capacity * 2) hcap2 sh.strs
    (List.replicate (sh.capacity * 2) []) (List.length_replicate _ _)
    (placed_replicate _ _)
  intro i hi e he
  exact h i hi e he

theorem grow_mem_home (sh : slice_shard) (hcap : 0 < sh.capacity)
    (e : InternedSliceRefcount) (he : e ∈ entriesOf sh) :
    e ∈ chainAt (grow_shard sh) (TABLE_IDX e.hash (sh.capacity * 2)) := by
  have h1 : e ∈ entriesOf (grow_shard sh) :=
    (grow_entries_perm sh hcap).mem_iff.2 he
  obtain ⟨i, hi, hmem⟩ := mem_flatten_idx _ e h1
  have hplace := grow_wellPlaced sh hcap i hi e hmem
  rw [grow_capacity] at hplace
  rw [hplace]
  exact hmem

theorem grow_findable (sh : slice_shard) (hcap : 0 < sh.capacity)
    (h : Nat) (c : List Nat) (hf : findable sh h c) :
    findable (grow_shard sh) h c := by
  obtain ⟨e, he, h1, h2, h3⟩ := hf
  have hent : e ∈ entriesOf sh := mem_getD_flatten sh.strs _ e he
  refine ⟨e, ?_, h1, h2, h3⟩
  rw [grow_capacity, ← h1]
  exact grow_mem_home sh hcap e hent

/-! ### The create path (`InternNewStringLocked`) and `FindOrCreateInternedSlice` -/

theorem content_guard (args : List Nat) :
    (if 0 < args.length then args else []) = args := by
  cases args with
  | nil => rfl
  | cons a l => simp

theorem internNew_eq (shard : slice_shard) (idx hash : Nat) (args : List Nat)
    (fid : Nat) :
    InternNewStringLocked shard idx hash args fid =
      (newEntry hash args fid,
        if shard.count + 1 > shard.capacity * 2
        then grow_shard (linkNew shard idx hash args fid)
        else linkNew shard idx hash args fid) := by
  simp only [InternNewStringLocked, linkNew, newEntry, content_guard]
  split <;> rfl

theorem linkNew_len (shard : slice_shard) (idx hash : Nat) (args : List Nat)
    (fid : Nat) :
    (linkNew shard idx hash args fid).strs.length = shard.strs.length :=
  List.length_set shard.strs idx _

theorem linkNew_entries_perm (shard : slice_shard) (idx hash : Nat)
    (args : List Nat) (fid : Nat) (hidx : idx < shard.strs.length) :
    (entriesOf (linkNew shard idx hash args fid)).Perm
      (newEntry hash args fid :: entriesOf shard) :=
  flatten_set_cons_perm shard.strs idx _ hidx

theorem linkNew_chainAt_self (shard : slice_shard) (idx hash : Nat)
    (args : List Nat) (fid : Nat) (hidx : idx < shard.strs.length) :
    chainAt (linkNew shard idx hash args fid) idx =
      newEntry hash args fid :: chainAt shard idx :=
  getD_set_self shard.strs idx _ [] hidx

theorem findOrCreate_match (sh : slice_shard) (hash : Nat) (args : List Nat)
    (fid : Nat) (m : InternedSliceRefcount)
    (chain' : List InternedSliceRefcount)
    (hm : MatchInternedSliceLocked hash args
      (chainAt sh (TABLE_IDX hash sh.capacity)) = some (m, chain')) :
    FindOrCreateInternedSlice sh hash args fid =
      (m, { sh with strs := sh.strs.set (TABLE_IDX hash sh.capacity) chain' }) := by
  have hm' : MatchInternedSliceLocked hash args
      (sh.strs.getD (TABLE_IDX hash sh.capacity) []) = some (m, chain') := hm
  simp only [FindOrCreateInternedSlice]
  rw [hm']

theorem findOrCreate_create (sh : slice_shard) (hash : Nat) (args : List Nat)
    (fid : Nat)
    (hm : MatchInternedSliceLocked hash args
      (chainAt sh (TABLE_IDX hash sh.capacity)) = none) :
    FindOrCreateInternedSlice sh hash args fid =
      InternNewStringLocked sh (TABLE_IDX hash sh.capacity) hash args fid := by
  have hm' : MatchInternedSliceLocked hash args
      (sh.strs.getD (TABLE_IDX hash sh.capacity) []) = none := hm
  simp only [FindOrCreateInternedSlice]
  rw [hm']

theorem create_path (sh : slice_shard) (hash : Nat) (args : List Nat)
    (fid : Nat) (hwf : wf sh)
    (hm : MatchInternedSliceLocked hash args
      (chainAt sh (TABLE_IDX hash sh.capacity)) = none) :
    (FindOrCreateInternedSlice sh hash args fid).1 = newEntry hash args fid ∧
    (FindOrCreateInternedSlice sh hash args fid).2.count = sh.count + 1 ∧
    (entriesOf (FindOrCreateInternedSlice sh hash args fid).2).Perm
      (newEntry hash args fid :: entriesOf sh) ∧
    newEntry hash args fid ∈
      chainAt (FindOrCreateInternedSlice sh hash args fid).2
        (TABLE_IDX hash (FindOrCreateInternedSlice sh hash args fid).2.capacity) ∧
    wf (FindOrCreateInternedSlice sh hash args fid).2 := by
  rw [findOrCreate_create sh hash args fid hm, internNew_eq]
  have hidx : TABLE_IDX hash sh.capacity < sh.strs.length :=
    hwf.1 ▸ tableIdx_lt hash sh.capacity hwf.2
  have hcapL : (linkNew sh (TABLE_IDX hash sh.capacity) hash args fid).capacity
      = sh.capacity := rfl
  have hposL : 0 < (linkNew sh (TABLE_IDX hash sh.capacity) hash args fid).capacity :=
    hcapL ▸ hwf.2
  have hmemL : newEntry hash args fid ∈
      entriesOf (linkNew sh (TABLE_IDX hash sh.capacity) hash args fid) := by
    apply mem_getD_flatten _ (TABLE_IDX hash sh.capacity)
    rw [show (linkNew sh (TABLE_IDX hash sh.capacity) hash args fid).strs.getD
      (TABLE_IDX hash sh.capacity) [] =
      chainAt (linkNew sh (TABLE_IDX hash sh.capacity) hash args fid)
        (TABLE_IDX hash sh.capacity) from rfl,
      linkNew_chainAt_self sh _ hash args fid hidx]
    exact List.mem_cons_self _ _
  by_cases hgrow : sh.count + 1 > sh.capacity * 2
  · rw [if_pos hgrow]
    refine ⟨rfl, rfl, ?_, ?_, ?_⟩
    · exact (grow_entries_perm _ hposL).trans
        (linkNew_entries_perm sh _ hash args fid hidx)
    · have hhome := grow_mem_home _ hposL (newEntry hash args fid) hmemL
      rw [hcapL] at hhome
      rw [show ((newEntry hash args fid,
        grow_shard (linkNew sh (TABLE_IDX hash sh.capacity) hash args fid)).2.capacity)
        = sh.capacity * 2 from grow_capacity _]
      exact hhome
    · constructor
      · rw [show (newEntry hash args fid,
          grow_shard (linkNew sh (TABLE_IDX hash sh.capacity) hash args fid)).2
          = grow_shard (linkNew sh (TABLE_IDX hash sh.capacity) hash args fid) from rfl,
          grow_len, grow_capacity, hcapL]
      · rw [show (newEntry hash args fid,
          grow_shard (linkNew sh (TABLE_IDX hash sh.capacity) hash args fid)).2
          = grow_shard (linkNew sh (TABLE_IDX hash sh.capacity) hash args fid) from rfl,
          grow_capacity, hcapL]
        exact Nat.mul_pos hwf.2 (by decide)
  · rw [if_neg hgrow]
    refine ⟨rfl, rfl, ?_, ?_, ?_⟩
    · exact linkNew_entries_perm sh _ hash args fid hidx
    · rw [show ((newEntry hash args fid,
        linkNew sh (TABLE_IDX hash sh.capacity) hash args fid).2.capacity)
        = sh.capacity from rfl,
        show ((newEntry hash args fid,
        linkNew sh (TABLE_IDX hash sh.capacity) hash args fid).2)
        = linkNew sh (TABLE_IDX hash sh.capacity) hash args fid from rfl,
        linkNew_chainAt_self sh _ hash args fid hidx]
      exact List.mem_cons_self _ _
    · exact ⟨(linkNew_len sh _ hash args fid).trans hwf.1, hwf.2⟩

theorem match_path (sh : slice_shard) (hash : Nat) (args : List Nat)
    (fid : Nat) (m : InternedSliceRefcount)
    (chain' : List InternedSliceRefcount) (hwf : wf sh)
    (hm : MatchInternedSliceLocked hash args
      (chainAt sh (TABLE_IDX hash sh.capacity)) = some (m, chain')) :
    (FindOrCreateInternedSlice sh hash args fid).1 = m ∧
    (FindOrCreateInternedSlice sh hash args fid).2.count = sh.count ∧
    (entriesOf (FindOrCreateInternedSlice sh hash args fid).2).map
        InternedSliceRefcount.eid = (entriesOf sh).map InternedSliceRefcount.eid ∧
    (entriesOf (FindOrCreateInternedSlice sh hash args fid).2).length =
      (entriesOf sh).length ∧
    (FindOrCreateInternedSlice sh hash args fid).2.capacity = sh.capacity ∧
    wf (FindOrCreateInternedSlice sh hash args fid).2 := by
  rw [findOrCreate_match sh hash args fid m chain' hm]
  have hidx : TABLE_IDX hash sh.capacity < sh.strs.length :=
    hwf.1 ▸ tableIdx_lt hash sh.capacity hwf.2
  obtain ⟨hmap, hlen⟩ := match_some_maps hash args _ m chain' hm
  have hmap' : chain'.map InternedSliceRefcount.eid =
      (sh.strs.getD (TABLE_IDX hash sh.capacity) []).map
        InternedSliceRefcount.eid := hmap
  have hlen' : chain'.length =
      (sh.strs.getD (TABLE_IDX hash sh.capacity) []).length := hlen
  refine ⟨rfl, rfl, ?_, ?_, rfl, ?_⟩
  · show ((sh.strs.set (TABLE_IDX hash sh.capacity) chain').flatten).map
      InternedSliceRefcount.eid = (sh.strs.flatten).map InternedSliceRefcount.eid
    rw [flatten_set sh.strs _ chain' hidx,
      flatten_decomp sh.strs (TABLE_IDX hash sh.capacity) hidx]
    simp only [List.map_append]
    rw [hmap']
  · show ((sh.strs.set (TABLE_IDX hash sh.capacity) chain').flatten).length =
      (sh.strs.flatten).length
    rw [flatten_set sh.strs _ chain' hidx,
      flatten_decomp sh.strs (TABLE_IDX hash sh.capacity) hidx]
    simp only [List.length_append]
    rw [hlen']
  · exact ⟨(List.length_set sh.strs _ chain').trans hwf.1, hwf.2⟩

/-! ### Shutdown and global-state lemmas -/

theorem shutdownLoop_false_spec :
    ∀ shards, (shutdownLoop false shards).freedBucketArrays = shards.length ∧
      (shutdownLoop false shards).shardArrayFreed = true := by
  intro shards
  induction shards with
  | nil => exact ⟨rfl, rfl⟩
  | cons sh rest ih =>
    rw [shutdownLoop, if_neg (fun h => Bool.noConfusion h.2)]
    constructor
    · show (shutdownLoop false rest).freedBucketArrays + 1 = rest.length + 1
      rw [ih.1]
    · exact ih.2

theorem shutdownLoop_freedEntries (b : Bool) :
    ∀ shards, (shutdownLoop b shards).freedEntries = 0 := by
  intro shards
  induction shards with
  | nil => rfl
  | cons sh rest ih =>
    rw [shutdownLoop]
    by_cases hcond : sh.count ≠ 0 ∧ b = true
    · rw [if_pos hcond]
    · rw [if_neg hcond]
      exact ih

theorem shutdownLoop_clean (b : Bool) :
    ∀ shards, (∀ s ∈ shards, s.count = 0) →
      shutdownLoop b shards =
        { leakLines := [], freedBucketArrays := shards.length,
          freedEntries := 0, shardArrayFreed := true, aborted := false } := by
  intro shards
  induction shards with
  | nil => intro _; rfl
  | cons sh rest ih =>
    intro hclean
    have hs : sh.count = 0 := hclean sh (List.mem_cons_self sh rest)
    have hcond : ¬(sh.count ≠ 0 ∧ b = true) := fun h => h.1 hs
    have hlines : ¬sh.count ≠ 0 := fun h => h hs
    simp only [shutdownLoop]
    rw [if_neg hcond, if_neg hlines,
      ih (fun s hs' => hclean s (List.mem_cons_of_mem sh hs'))]
    rfl

theorem shutdownLoop_true_abort :
    ∀ (pre : List slice_shard) (sh : slice_shard) (suf : List slice_shard),
      (∀ s ∈ pre, s.count = 0) → sh.count ≠ 0 →
      shutdownLoop true (pre ++ sh :: suf) =
        { leakLines := (entriesOf sh).map (fun s => grpc_dump_slice s.content),
          freedBucketArrays := pre.length, freedEntries := 0,
          shardArrayFreed := false, aborted := true } := by
  intro pre
  induction pre with
  | nil =>
    intro sh suf _ hleak
    show shutdownLoop true (sh :: suf) = _
    simp only [shutdownLoop]
    rw [if_pos (show sh.count ≠ 0 ∧ True from ⟨hleak, trivial⟩),
      if_pos hleak]
    rfl
  | cons s pre ih =>
    intro sh suf hclean hleak
    have hs : s.count = 0 := hclean s (List.mem_cons_self s pre)
    have hcond : ¬(s.count ≠ 0 ∧ True) := fun h => h.1 hs
    have hlines : ¬s.count ≠ 0 := fun h => h hs
    rw [List.cons_append]
    simp only [shutdownLoop]
    rw [if_neg hcond, if_neg hlines,
      ih sh suf (fun x hx => hclean x (List.mem_cons_of_mem s hx)) hleak]
    rfl

theorem applyOps_preserves_forced :
    ∀ (ops : List GlobalOp) (st : GlobalState),
      st.g_forced_hash_seed = true →
      (applyOps st ops).g_forced_hash_seed = true := by
  intro ops
  induction ops with
  | nil => intro st h; exact h
  | cons op ops ih =>
    intro st h
    cases op with
    | init c => exact ih _ h
    | force_seed s => exact ih _ rfl

/-! ### The claims -/

/-- Claim C2: during the bucket scan, an entry is returned as a match only
when both its stored hash and its byte content equal the query, and a
hash-colliding entry with different content is skipped with the scan
continuing down the chain. -/
theorem c2_collision_skip :
    (∀ (hash : Nat) (args : List Nat) chain m chain',
      MatchInternedSliceLocked hash args chain = some (m, chain') →
      m.hash = hash ∧ m.content = args) ∧
    (∀ (hash : Nat) (args : List Nat) (s : InternedSliceRefcount)
      (rest : List InternedSliceRefcount),
      s.hash = hash → s.content ≠ args →
      MatchInternedSliceLocked hash args (s :: rest) =
        (MatchInternedSliceLocked hash args rest).map
          (fun p => (p.1, s :: p.2))) := by
  constructor
  · intro hash args chain m chain' h
    obtain ⟨pre, e, suf, _, h1, h2, _, h4, _⟩ :=
      match_some_decomp hash args chain m chain' h
    subst h4
    exact ⟨by simp [bump, h1], by simp [bump, h2]⟩
  · intro hash args s rest _ h2
    rw [MatchInternedSliceLocked, if_neg (fun hc => h2 hc.2)]

/-- Witness for C2: a live same-hash same-content entry is matched (with the
match's hash and content equal to the query), and a same-hash
different-content entry at the chain head makes the scan continue on the
tail. -/
theorem c2_collision_skip_witness :
    ((bump { eid := 5, hash := 7, content := [1], refcnt := 1 }).hash = 7 ∧
      (bump { eid := 5, hash := 7, content := [1], refcnt := 1 }).content = [1]) ∧
    MatchInternedSliceLocked 7 [1]
        [{ eid := 9, hash := 7, content := [2], refcnt := 1 }] =
      (MatchInternedSliceLocked 7 [1] []).map
        (fun p => (p.1, { eid := 9, hash := 7, content := [2], refcnt := 1 } :: p.2)) :=
  ⟨c2_collision_skip.1 7 [1]
      [{ eid := 5, hash := 7, content := [1], refcnt := 1 }]
      (bump { eid := 5, hash := 7, content := [1], refcnt := 1 })
      [bump { eid := 5, hash := 7, content := [1], refcnt := 1 }] (by decide),
    c2_collision_skip.2 7 [1]
      { eid := 9, hash := 7, content := [2], refcnt := 1 } []
      (by decide) (by decide)⟩

/-- Claim C5: when the entry being destroyed is missing from its expected
bucket chain, the unlink never completes as if it had succeeded — the
destructor's search loop walks off the chain's null terminator (modelled as
`none`), a fatal crash rather than a silent no-op. -/
theorem c5_unlink_missing_is_fatal (sh : slice_shard)
    (e : InternedSliceRefcount)
    (habsent : ∀ x ∈ chainAt sh (TABLE_IDX e.hash sh.capacity), x.eid ≠ e.eid) :
    internedSliceDtor sh e = none := by
  have h : unlinkFromChain e.eid
      (sh.strs.getD (TABLE_IDX e.hash sh.capacity) []) = none :=
    (unlink_eq_none_iff e.eid _).2 habsent
  simp only [internedSliceDtor]
  rw [h]

/-- Witness for C5: destroying an entry that is in no bucket of a fresh shard
hits the fatal path. -/
theorem c5_unlink_missing_is_fatal_witness :
    internedSliceDtor initialShard demoEntry = none :=
  c5_unlink_missing_is_fatal initialShard demoEntry (by decide)

/-- Claim C7, amended: with strict leak detection off shutdown frees the
bucket array of every shard and then the shard array itself, whatever the
leak state, and likewise in strict mode when no shard leaked; in every mode
the leaked entries' own memory is never freed (abandoned, not double-freed).
With strict mode on and a leak present, the claim as stated fails: exactly
the clean shards preceding the first leaking shard have their bucket arrays
freed, then `abort()` fires before that shard's array, the later shards'
arrays, or the shard array itself are freed (see the counterexample). -/
theorem c7_shutdown_frees (shards : List slice_shard) (b : Bool)
    (pre suf : List slice_shard) (sh : slice_shard) :
    (grpc_slice_intern_shutdown shards false).freedBucketArrays = shards.length ∧
    (grpc_slice_intern_shutdown shards false).shardArrayFreed = true ∧
    (grpc_slice_intern_shutdown shards b).freedEntries = 0 ∧
    ((∀ s ∈ shards, s.count = 0) →
      (grpc_slice_intern_shutdown shards b).freedBucketArrays = shards.length ∧
      (grpc_slice_intern_shutdown shards b).shardArrayFreed = true) ∧
    ((∀ s ∈ pre, s.count = 0) → sh.count ≠ 0 →
      (grpc_slice_intern_shutdown (pre ++ sh :: suf) true).freedBucketArrays
        = pre.length ∧
      (grpc_slice_intern_shutdown (pre ++ sh :: suf) true).shardArrayFreed
        = false ∧
      (grpc_slice_intern_shutdown (pre ++ sh :: suf) true).aborted = true) := by
  refine ⟨(shutdownLoop_false_spec shards).1, (shutdownLoop_false_spec shards).2,
    shutdownLoop_freedEntries b shards, ?_, ?_⟩
  · intro hclean
    constructor
    · show (shutdownLoop b shards).freedBucketArrays = shards.length
      rw [shutdownLoop_clean b shards hclean]
    · show (shutdownLoop b shards).shardArrayFreed = true
      rw [shutdownLoop_clean b shards hclean]
  · intro hclean hleak
    refine ⟨?_, ?_, ?_⟩
    · show (shutdownLoop true (pre ++ sh :: suf)).freedBucketArrays = pre.length
      rw [shutdownLoop_true_abort pre sh suf hclean hleak]
    · show (shutdownLoop true (pre ++ sh :: suf)).shardArrayFreed = false
      rw [shutdownLoop_true_abort pre sh suf hclean hleak]
    · show (shutdownLoop true (pre ++ sh :: suf)).aborted = true
      rw [shutdownLoop_true_abort pre sh suf hclean hleak]

/-- Witness for C7's strict-mode part: a clean shard followed by a leaking
shard, shut down in strict mode, frees exactly the one clean bucket array
and aborts without freeing the shard array. -/
theorem c7_shutdown_frees_witness :
    (grpc_slice_intern_shutdown ([initialShard] ++ leakShard :: []) true).freedBucketArrays
      = [initialShard].length ∧
    (grpc_slice_intern_shutdown ([initialShard] ++ leakShard :: []) true).shardArrayFreed
      = false ∧
    (grpc_slice_intern_shutdown ([initialShard] ++ leakShard :: []) true).aborted
      = true :=
  (c7_shutdown_frees [] true [initialShard] [] leakShard).2.2.2.2
    (by decide) (by decide)

/-- Counterexample for C7 as stated: a 32-shard table with one leaked entry,
shut down with strict leak detection configured, frees none of the 32 bucket
arrays and never reaches `delete[] g_shards`. -/
theorem c7_counterexample :
    leakyTable.length = 32 ∧
    ¬((grpc_slice_intern_shutdown leakyTable true).freedBucketArrays = 32 ∧
      (grpc_slice_intern_shutdown leakyTable true).shardArrayFreed = true) := by
  decide

/-- Claim C8: `init` derives the seed from the clock (cast to 32 bits) when
no seed was forced, keeps the forced seed otherwise, and in both cases
allocates exactly `SHARD_COUNT = 32` shards, each with count 0 and a
zero-initialized bucket array of the initial capacity 8. -/
theorem c8_init_behavior (st : GlobalState) (c seed0 : Nat) :
    (grpc_slice_intern_init { st with g_forced_hash_seed := false } c).g_hash_seed
      = c % 2 ^ 32 ∧
    (grpc_slice_intern_init
        { st with g_forced_hash_seed := true, g_hash_seed := seed0 } c).g_hash_seed
      = seed0 ∧
    (grpc_slice_intern_init st c).g_shards
      = some (List.replicate SHARD_COUNT initialShard) ∧
    SHARD_COUNT = 32 ∧
    initialShard.count = 0 ∧ initialShard.capacity = 8 ∧
    initialShard.strs = List.replicate 8 ([] : List InternedSliceRefcount) :=
  ⟨rfl, rfl, rfl, by decide, rfl, rfl, rfl⟩

/-- Claim C10: the test-only seed override stores the seed and sets the
forced flag unconditionally (in particular without touching the shard table,
so also after `init` has run); no operation ever clears the flag, and any
later `init` leaves the seed unchanged instead of deriving it from the
clock. -/
theorem c10_force_seed (st : GlobalState) (s : Nat) (ops : List GlobalOp)
    (c : Nat) :
    (grpc_test_only_set_slice_hash_seed st s).g_hash_seed = s ∧
    (grpc_test_only_set_slice_hash_seed st s).g_forced_hash_seed = true ∧
    (grpc_test_only_set_slice_hash_seed st s).g_shards = st.g_shards ∧
    (applyOps (grpc_test_only_set_slice_hash_seed st s) ops).g_forced_hash_seed
      = true ∧
    (grpc_slice_intern_init
        (applyOps (grpc_test_only_set_slice_hash_seed st s) ops) c).g_hash_seed
      = (applyOps (grpc_test_only_set_slice_hash_seed st s) ops).g_hash_seed := by
  have hforced := applyOps_preserves_forced ops
    (grpc_test_only_set_slice_hash_seed st s) rfl
  refine ⟨rfl, rfl, rfl, hforced, ?_⟩
  simp [grpc_slice_intern_init, hforced]

theorem shutdownLoop_lines :
    ∀ shards, (∀ sh ∈ shards, countInv sh) →
      (shutdownLoop false shards).leakLines =
        ((shards.map entriesOf).flatten).map
          (fun e => grpc_dump_slice e.content) := by
  intro shards
  induction shards with
  | nil => intro _; rfl
  | cons sh rest ih =>
    intro hinv
    have hsh := hinv sh (List.mem_cons_self sh rest)
    have hrest := ih (fun s hs => hinv s (List.mem_cons_of_mem sh hs))
    rw [shutdownLoop, if_neg (fun h => Bool.noConfusion h.2)]
    show (if sh.count ≠ 0 then
        (entriesOf sh).map (fun s => grpc_dump_slice s.content) else [])
        ++ (shutdownLoop false rest).leakLines = _
    rw [hrest, List.map_cons, List.flatten_cons, List.map_append]
    by_cases hc : sh.count = 0
    · have hnil : entriesOf sh = [] := by
        have h0 : sh.count = (entriesOf sh).length := hsh
        rw [hc] at h0
        exact List.eq_nil_of_length_eq_zero h0.symm
      rw [if_neg (fun h => h hc), hnil]
      rfl
    · rw [if_pos hc]

/-- Claim C6, amended: in the default non-strict mode, shutting down with
zero remaining entries emits no per-entry leak line, and with N remaining
entries — however they are distributed across the shards — emits exactly N
lines, each the dual hex/printable-ASCII dump of that entry's bytes.  With
strict leak detection configured, exactly the first leaking shard's entries
are dumped and then `abort()` fires, suppressing any later shard's lines —
so the claim as stated fails in strict mode (see the counterexample). -/
theorem c6_leak_accounting (shards : List slice_shard)
    (pre suf : List slice_shard) (sh : slice_shard)
    (hinv : ∀ s ∈ shards, countInv s) :
    C6Statement shards ∧
    ((∀ s ∈ pre, s.count = 0) → sh.count ≠ 0 →
      (grpc_slice_intern_shutdown (pre ++ sh :: suf) true).leakLines =
        (entriesOf sh).map (fun s => grpc_dump_slice s.content) ∧
      (grpc_slice_intern_shutdown (pre ++ sh :: suf) true).aborted = true) := by
  have h1 := shutdownLoop_lines shards hinv
  refine ⟨⟨h1, ?_, ?_⟩, ?_⟩
  · show (shutdownLoop false shards).leakLines.length = _
    rw [h1, List.length_map]
  · intro hz
    show (shutdownLoop false shards).leakLines = []
    rw [h1, hz]
    rfl
  · intro hclean hleak
    constructor
    · show (shutdownLoop true (pre ++ sh :: suf)).leakLines = _
      rw [shutdownLoop_true_abort pre sh suf hclean hleak]
    · show (shutdownLoop true (pre ++ sh :: suf)).aborted = true
      rw [shutdownLoop_true_abort pre sh suf hclean hleak]

/-- Witness for C6: a concrete two-shard table with a single remaining entry
yields exactly its dump line in non-strict mode, and a clean shard followed
by a leaking one dumps exactly the leaking shard's entry in strict mode. -/
theorem c6_leak_accounting_witness :
    C6Statement c6Shards ∧
    ((∀ s ∈ [initialShard], s.count = 0) → leakShard.count ≠ 0 →
      (grpc_slice_intern_shutdown ([initialShard] ++ leakShard :: []) true).leakLines =
        (entriesOf leakShard).map (fun s => grpc_dump_slice s.content) ∧
      (grpc_slice_intern_shutdown ([initialShard] ++ leakShard :: []) true).aborted
        = true) :=
  c6_leak_accounting c6Shards [initialShard] [] leakShard (by decide)

/-- Counterexample for C6 as stated: two remaining entries in two different
shards, shut down with strict leak detection configured, produce exactly one
per-entry leak line, not two — `abort()` at the first leaking shard
suppresses the second shard's line. -/
theorem c6_counterexample :
    (∀ s ∈ twoLeakShards, countInv s) ∧
    ((twoLeakShards.map entriesOf).flatten).length = 2 ∧
    (grpc_slice_intern_shutdown twoLeakShards true).leakLines.length = 1 ∧
    ¬(grpc_slice_intern_shutdown twoLeakShards true).leakLines.length = 2 := by
  decide

/-- Claim C3: growth doubles the bucket array (never shrinks it), relinks
every entry — including a just-created one — into the bucket
`(hash >> 5) mod newCapacity` without touching any entry, keeps `count`, and
preserves findability by content; it is triggered exactly when a creating
intern call drives `count` strictly above twice the capacity. -/
theorem c3_grow_shard (sh : slice_shard) (hwf : wf sh) : C3Statement sh := by
  have hcap := hwf.2
  refine ⟨grow_capacity sh, grow_len sh, ?_, grow_wellPlaced sh hcap,
    grow_entries_perm sh hcap, grow_count sh, grow_findable sh hcap,
    ?_, ?_, ?_⟩
  · rw [grow_capacity]
    omega
  · intro idx hash args fid htrig
    rw [internNew_eq]
    show (if sh.count + 1 > sh.capacity * 2
      then grow_shard (linkNew sh idx hash args fid)
      else linkNew sh idx hash args fid).capacity = sh.capacity * 2
    rw [if_pos htrig, grow_capacity]
    rfl
  · intro idx hash args fid htrig
    rw [internNew_eq]
    show (if sh.count + 1 > sh.capacity * 2
      then grow_shard (linkNew sh idx hash args fid)
      else linkNew sh idx hash args fid).capacity = sh.capacity
    rw [if_neg htrig]
    rfl
  · intro hash args fid
    cases hm : MatchInternedSliceLocked hash args
      (chainAt sh (TABLE_IDX hash sh.capacity)) with
    | some p =>
      obtain ⟨m, chain'⟩ := p
      obtain ⟨_, _, _, _, hcapEq, _⟩ := match_path sh hash args fid m chain' hwf hm
      rw [hcapEq]
    | none =>
      rw [findOrCreate_create sh hash args fid hm, internNew_eq]
      show sh.capacity ≤ (if sh.count + 1 > sh.capacity * 2
        then grow_shard (linkNew sh (TABLE_IDX hash sh.capacity) hash args fid)
        else linkNew sh (TABLE_IDX hash sh.capacity) hash args fid).capacity
      by_cases htrig : sh.count + 1 > sh.capacity * 2
      · rw [if_pos htrig, grow_capacity]
        show sh.capacity ≤ sh.capacity * 2
        omega
      · rw [if_neg htrig]
        exact Nat.le_refl sh.capacity

/-- Witness for C3 at the initial shard. -/
theorem c3_grow_shard_witness : C3Statement initialShard :=
  c3_grow_shard initialShard (by decide)

theorem dtor_some_decomp (sh : slice_shard) (e : InternedSliceRefcount)
    (sh' : slice_shard) (h : internedSliceDtor sh e = some sh') :
    ∃ chain', unlinkFromChain e.eid
        (chainAt sh (TABLE_IDX e.hash sh.capacity)) = some chain' ∧
      sh' = { sh with strs := sh.strs.set (TABLE_IDX e.hash sh.capacity) chain',
                      count := sh.count - 1 } := by
  simp only [internedSliceDtor] at h
  cases hu : unlinkFromChain e.eid
    (sh.strs.getD (TABLE_IDX e.hash sh.capacity) []) with
  | none => rw [hu] at h; exact Option.noConfusion h
  | some c => rw [hu] at h; exact ⟨c, hu, (Option.some.inj h).symm⟩

/-- Claim C4: `count` always equals the number of entries reachable from the
buckets — find-or-create preserves the invariant (and creation links one new
entry, incrementing `count` by one), drop-to-zero destruction removes exactly
one entry and decrements `count` by one, and growth changes neither `count`
nor the reachable entries. -/
theorem c4_count_invariant (sh : slice_shard) (hwf : wf sh)
    (hinv : countInv sh) : C4Statement sh := by
  have hcap := hwf.2
  have hgrowInv : countInv (grow_shard sh) := by
    show (grow_shard sh).count = (entriesOf (grow_shard sh)).length
    rw [grow_count, (grow_entries_perm sh hcap).length_eq]
    exact hinv
  refine ⟨?_, ?_, ?_, hgrowInv, grow_count sh, grow_entries_perm sh hcap⟩
  · intro hash args fid
    cases hm : MatchInternedSliceLocked hash args
      (chainAt sh (TABLE_IDX hash sh.capacity)) with
    | some p =>
      obtain ⟨m, chain'⟩ := p
      obtain ⟨_, hcount, _, hlen, _, _⟩ := match_path sh hash args fid m chain' hwf hm
      show (FindOrCreateInternedSlice sh hash args fid).2.count =
        (entriesOf (FindOrCreateInternedSlice sh hash args fid).2).length
      rw [hcount, hlen]
      exact hinv
    | none =>
      obtain ⟨_, hcount, hperm, _, _⟩ := create_path sh hash args fid hwf hm
      show (FindOrCreateInternedSlice sh hash args fid).2.count =
        (entriesOf (FindOrCreateInternedSlice sh hash args fid).2).length
      rw [hcount, hperm.length_eq, List.length_cons, hinv]
  · intro hash args fid hm
    exact (create_path sh hash args fid hwf hm).2.1
  · intro e sh' h
    obtain ⟨chain', hu, hsh'⟩ := dtor_some_decomp sh e sh' h
    obtain ⟨pre, x, suf, hchain, _, hchain'⟩ := unlink_some_decomp e.eid _ chain' hu
    have hne : chainAt sh (TABLE_IDX e.hash sh.capacity) ≠ [] := by
      rw [hchain]
      simp
    have hidx : TABLE_IDX e.hash sh.capacity < sh.strs.length := by
      by_contra hge
      push_neg at hge
      rw [show chainAt sh (TABLE_IDX e.hash sh.capacity) =
        sh.strs.getD (TABLE_IDX e.hash sh.capacity) [] from rfl,
        getD_eq_default sh.strs [] _ hge] at hne
      exact hne rfl
    have hlenX : (chainAt sh (TABLE_IDX e.hash sh.capacity)).length =
        pre.length + suf.length + 1 := by
      rw [hchain, List.length_append, List.length_cons]
      omega
    have hlenC : chain'.length = pre.length + suf.length := by
      rw [hchain', List.length_append]
    have hOld : (entriesOf sh).length =
        ((List.take (TABLE_IDX e.hash sh.capacity) sh.strs).flatten).length +
        (chainAt sh (TABLE_IDX e.hash sh.capacity)).length +
        ((List.drop (TABLE_IDX e.hash sh.capacity + 1) sh.strs).flatten).length := by
      show (sh.strs.flatten).length = _
      conv_lhs => rw [flatten_decomp sh.strs (TABLE_IDX e.hash sh.capacity) hidx]
      rw [List.length_append, List.length_append]
      rfl
    have hNew : (entriesOf sh').length =
        ((List.take (TABLE_IDX e.hash sh.capacity) sh.strs).flatten).length +
        chain'.length +
        ((List.drop (TABLE_IDX e.hash sh.capacity + 1) sh.strs).flatten).length := by
      rw [hsh']
      show ((sh.strs.set (TABLE_IDX e.hash sh.capacity) chain').flatten).length = _
      rw [flatten_set sh.strs (TABLE_IDX e.hash sh.capacity) chain' hidx,
        List.length_append, List.length_append]
    have hcnt : sh'.count = sh.count - 1 := by rw [hsh']
    have hinv' : sh.count = (entriesOf sh).length := hinv
    refine ⟨?_, ?_, ?_⟩
    · show sh'.count = (entriesOf sh').length
      omega
    · omega
    · omega

/-- Witness for C4 at the initial shard. -/
theorem c4_count_invariant_witness : C4Statement initialShard :=
  c4_count_invariant initialShard (by decide) (by decide)

/-- Claim C1: under the real hashing discipline (the query hash is the hash
of the input bytes and every stored entry's hash is the hash of its content)
and the structural invariants, find-or-create returns an entry whose bytes
equal the input; when a live entry of equal content exists in the table it is
returned with its refcount incremented and nothing is allocated (the
identities reachable from the shard are unchanged), otherwise a fresh entry
with refcount 1 and the copied bytes is created and linked into the selected
bucket; interning the same content twice yields the same entry identity. -/
theorem c1_intern_find_or_create (hashFn : List Nat → Nat) (sh : slice_shard)
    (hash : Nat) (args : List Nat) (fid : Nat)
    (hwf : wf sh) (hwp : wellPlaced sh)
    (hcons : ∀ e ∈ entriesOf sh, e.hash = hashFn e.content)
    (hh : hash = hashFn args) :
    C1Statement sh hash args fid := by
  have tableToChain : ∀ e ∈ entriesOf sh, e.content = args →
      e ∈ chainAt sh (TABLE_IDX hash sh.capacity) ∧ e.hash = hash := by
    intro e he hc
    have hhash : e.hash = hash := by rw [hcons e he, hc, ← hh]
    obtain ⟨i, hi, hmem⟩ := mem_flatten_idx sh.strs e he
    have hpl := hwp i hi e hmem
    rw [hhash] at hpl
    exact ⟨by rw [show chainAt sh (TABLE_IDX hash sh.capacity) =
      sh.strs.getD (TABLE_IDX hash sh.capacity) [] from rfl, hpl]; exact hmem,
      hhash⟩
  cases hm : MatchInternedSliceLocked hash args
    (chainAt sh (TABLE_IDX hash sh.capacity)) with
  | some p =>
    obtain ⟨m, chain'⟩ := p
    obtain ⟨hfst, hcount, hmap, hlen, hcapEq, hwf2⟩ :=
      match_path sh hash args fid m chain' hwf hm
    obtain ⟨pre, eM, suf, hchain, he1, he2, he3, he4, _⟩ :=
      match_some_decomp hash args _ m chain' hm
    have heMmem : eM ∈ chainAt sh (TABLE_IDX hash sh.capacity) := by
      rw [hchain]
      exact List.mem_append_right pre (List.mem_cons_self eM suf)
    refine ⟨?_, ?_, ?_, ?_, ?_⟩
    · rw [hfst, he4]
      simp [bump, he2]
    · rw [hfst, he4]
      simp [bump, he1]
    · intro _
      exact ⟨eM, heMmem, he1, he2, he3, by rw [hfst, he4], hcount, hmap⟩
    · intro hno
      exact absurd ⟨eM, mem_getD_flatten sh.strs _ eM heMmem, he2, he3⟩ hno
    · intro hnone _
      exact absurd he2 (hnone eM (mem_getD_flatten sh.strs _ eM heMmem))
  | none =>
    obtain ⟨hfst, hcount, hperm, hmem, hwf2⟩ := create_path sh hash args fid hwf hm
    refine ⟨?_, ?_, ?_, ?_, ?_⟩
    · rw [hfst]
      rfl
    · rw [hfst]
      rfl
    · intro hex
      exfalso
      obtain ⟨e, he, hc, hr⟩ := hex
      obtain ⟨hchainMem, hhash⟩ := tableToChain e he hc
      exact hr ((match_eq_none_iff hash args _).1 hm e hchainMem hhash hc)
    · intro _
      exact ⟨hfst, hcount, hperm, hmem⟩
    · intro hnone fid₂
      have huniq : ∀ x ∈ chainAt (FindOrCreateInternedSlice sh hash args fid).2
          (TABLE_IDX hash (FindOrCreateInternedSlice sh hash args fid).2.capacity),
          x.hash = hash → x.content = args → x = newEntry hash args fid := by
        intro x hx _ hxc
        have hxent : x ∈ entriesOf (FindOrCreateInternedSlice sh hash args fid).2 :=
          mem_getD_flatten _ _ x hx
        have hx2 := hperm.mem_iff.1 hxent
        rcases List.mem_cons.1 hx2 with h | h
        · exact h
        · exact absurd hxc (hnone x h)
      obtain ⟨chain₂, hm₂⟩ := match_of_unique hash args _ (newEntry hash args fid)
        hmem rfl rfl (by simp [newEntry]) huniq
      obtain ⟨hfst₂, _, _, _, _, _⟩ :=
        match_path (FindOrCreateInternedSlice sh hash args fid).2
          hash args fid₂ (bump (newEntry hash args fid)) chain₂ hwf2 hm₂
      rw [hfst₂, hfst]
      rfl

/-- Witness for C1 at a fresh shard with a constant-zero hash function. -/
theorem c1_intern_find_or_create_witness :
    C1Statement initialShard 0 [104, 105] 5 :=
  c1_intern_find_or_create (fun _ => 0) initialShard 0 [104, 105] 5
    (by decide) (by decide) (by decide) rfl

end SliceIntern
